import Mathlib

/-!
Shallow embedding of the deadlock-detection syscalls
(src/os/src/syscall/sync.rs), the process-management syscalls
(src/os/src/syscall/process.rs) and the easy-fs virtual inode layer
(src/easy-fs/src/vfs.rs) of an rCore-style teaching kernel, together
with theorems settling the specification claims about them.
-/

namespace RCore

/-! ### Resource accounting tables (src/os/src/syscall/sync.rs) -/

/-- Modulus of the kernel's u32 counters. -/
def U32MOD : Nat := 2 ^ 32

/-- Wrapping u32 increment, as `x += 1` compiles in release mode. -/
def incW (x : Nat) : Nat := (x + 1) % U32MOD

/-- Wrapping u32 decrement, as `x -= 1` compiles in release mode. -/
def decW (x : Nat) : Nat := (x + (U32MOD - 1)) % U32MOD

/-- Update index `i` of a vector of u32 counters, `v[i] = f(v[i])`. -/
def updAt (xs : List Nat) (i : Nat) (f : Nat → Nat) : List Nat :=
  xs.set i (f (xs.getD i 0))

/-- Update cell `(t, r)` of a matrix of u32 counters, `m[t][r] = f(m[t][r])`. -/
def updAt2 (m : List (List Nat)) (t r : Nat) (f : Nat → Nat) : List (List Nat) :=
  m.set t (updAt (m.getD t []) r f)

/-- Resource-accounting state of one resource class (mutexes or semaphores) of
one process: `available`, `allocated` and `need` mirror the fields
`mutex_available`, `mutex_allocated`, `mutex_need` of the process inner block
(resp. the `sem_available`, `sem_allocated`, `sem_need` triple), and
`enableDetect` mirrors `enable_deadlock_detect`. -/
structure PInner where
  available : List Nat
  allocated : List (List Nat)
  need : List (List Nat)
  enableDetect : Bool
  deriving DecidableEq

/-- Entry `r` of the Available vector. -/
def availAt (st : PInner) (r : Nat) : Nat := st.available.getD r 0

/-- Cell `(t, r)` of the Allocation matrix. -/
def allocAt (st : PInner) (t r : Nat) : Nat := (st.allocated.getD t []).getD r 0

/-- Cell `(t, r)` of the Need matrix. -/
def needAt (st : PInner) (t r : Nat) : Nat := (st.need.getD t []).getD r 0

/-- Modelled from the spec: pointwise comparison `Need[t][*] <= Work[*]` used
by the Banker safety check of `check_mutex_deadlock` / `check_sem_deadlock`
(os/src/task/process.rs, which is not under src/). -/
def vecLe : List Nat → List Nat → Bool
  | [], _ => true
  | _ :: _, [] => false
  | a :: l1, b :: l2 => decide (a ≤ b) && vecLe l1 l2

/-- Modelled from the spec: pointwise vector sum `Work += Allocation[t]` of the
Banker safety check, with u32 wrap-around. -/
def vecAdd (v w : List Nat) : List Nat := List.zipWith (fun a b => (a + b) % U32MOD) v w

/-- Modelled from the spec: one selection step of the Banker safety check, the
first thread index `t` with `Finish[t] = false` and `Need[t][*] <= Work[*]`. -/
def bankersPick (need : List (List Nat)) (finish : List Bool) (work : List Nat) : Option Nat :=
  (List.range need.length).find? (fun t => !(finish.getD t true) && vecLe (need.getD t []) work)

/-- Modelled from the spec: the loop of the Banker safety check; each round
finishes one thread, so fuel equal to the thread count suffices; the result is
`true` when the loop gets stuck with some thread unfinished (unsafe state). -/
def bankersGo (need alloc : List (List Nat)) : Nat → List Bool → List Nat → Bool
  | 0, finish, _ => finish.contains false
  | fuel + 1, finish, work =>
    match bankersPick need finish work with
    | some t => bankersGo need alloc fuel (finish.set t true) (vecAdd work (alloc.getD t []))
    | none => finish.contains false

/-- Modelled from the spec: `check_mutex_deadlock` / `check_sem_deadlock`
(os/src/task/process.rs, not under src/): copy Work from Available, run the
Banker loop, and report `true` exactly when the state is unsafe. -/
def checkDeadlock (avail : List Nat) (alloc need : List (List Nat)) : Bool :=
  bankersGo need alloc need.length (List.replicate need.length false) avail

/-- Table update performed at the top of `sys_mutex_lock`
(src/os/src/syscall/sync.rs lines 86-91) and of `sys_semaphore_down`
(lines 210-216): if the resource is available, take it
(`Available[r] -= 1`, `Allocation[t][r] += 1`), otherwise record the
unmet request (`Need[t][r] += 1`). -/
def acquireUpdate (st : PInner) (tid rid : Nat) : PInner :=
  if 0 < st.available.getD rid 0 then
    { st with available := updAt st.available rid decW,
              allocated := updAt2 st.allocated tid rid incW }
  else
    { st with need := updAt2 st.need tid rid incW }

/-- Embedding of `sys_mutex_lock` (src/os/src/syscall/sync.rs lines 70-101):
update the tables, then, if detection is enabled and the Banker check reports
deadlock, return -0xDEAD; otherwise acquire the mutex (a blocking action
outside this table model) and return 0. The second component is the
accounting state the syscall leaves behind. -/
def sysMutexLock (st : PInner) (tid mid : Nat) : Int × PInner :=
  let st1 := acquireUpdate st tid mid
  if st1.enableDetect && checkDeadlock st1.available st1.allocated st1.need then
    (-0xdead, st1)
  else
    (0, st1)

/-- Embedding of `sys_mutex_unlock` (src/os/src/syscall/sync.rs lines
103-125): `Available[m] += 1`, `Allocation[t][m] -= 1`, unlock, return 0. -/
def sysMutexUnlock (st : PInner) (tid mid : Nat) : Int × PInner :=
  (0, { st with available := updAt st.available mid incW,
                allocated := updAt2 st.allocated tid mid decW })

/-- Embedding of `sys_semaphore_down` (src/os/src/syscall/sync.rs lines
194-230), which performs exactly the same table update and deadlock check as
`sys_mutex_lock`, on the semaphore triple. -/
def sysSemaphoreDown (st : PInner) (tid sid : Nat) : Int × PInner :=
  let st1 := acquireUpdate st tid sid
  if st1.enableDetect && checkDeadlock st1.available st1.allocated st1.need then
    (-0xdead, st1)
  else
    (0, st1)

/-- Embedding of `sys_semaphore_up` (src/os/src/syscall/sync.rs lines
170-192): `Available[s] += 1`, `Allocation[t][s] -= 1`, up, return 0. -/
def sysSemaphoreUp (st : PInner) (tid sid : Nat) : Int × PInner :=
  (0, { st with available := updAt st.available sid incW,
                allocated := updAt2 st.allocated tid sid decW })

/-- Concrete two-thread, two-mutex state in the classic hold-and-wait cycle:
thread 0 holds mutex 0 and already waits for mutex 1, thread 1 holds mutex 1;
deadlock detection is enabled. -/
def stDead : PInner := ⟨[0, 0], [[1, 0], [0, 1]], [[0, 1], [0, 0]], true⟩

/-- Acquire-branch state used for the claim C3 witness: one thread, one
resource, available. -/
def stC3 : PInner := ⟨[1], [[1]], [[0]], false⟩

/-- Blocking-branch state used for the claim C3 witness: one thread, one
resource, not available. -/
def stC3b : PInner := ⟨[0], [[1]], [[0]], false⟩

/-- First-acquire state used for the claim C3 witness: one thread, one
resource, available, with the thread not yet holding any unit. -/
def stC3a : PInner := ⟨[1], [[0]], [[0]], false⟩

/-! ### Process syscalls (src/os/src/syscall/process.rs) -/

/-- One entry of the children list of the calling process control block: its
pid, its zombie flag, its exit code, and the number of strong Arc references
that remain to it once it has been removed from the children list. -/
structure ChildProc where
  cpid : Nat
  zombie : Bool
  ecode : Int
  rc : Nat
  deriving DecidableEq

/-- Pid filter of `sys_waitpid`: `pid == -1 || pid as usize == p.getpid()`,
with the Rust `as usize` cast modelled as reduction mod 2^64. -/
def pidMatches (pid : Int) (c : ChildProc) : Bool :=
  pid == -1 || (pid.emod (2 ^ 64)).toNat == c.cpid

/-- Embedding of `sys_waitpid` (src/os/src/syscall/process.rs lines 117-151).
The result is `none` when the kernel assertion
`assert_eq!(Arc::strong_count(&child), 1)` fails (a kernel panic), and
otherwise `some (ret, children_after, written)` where `written` is the exit
code stored through the user pointer, if any was stored. -/
def sysWaitpid (pid : Int) (cs : List ChildProc) : Option (Int × List ChildProc × Option Int) :=
  if !(cs.any (pidMatches pid)) then some (-1, cs, none)
  else
    match cs.findIdx? (fun p => p.zombie && pidMatches pid p) with
    | some idx =>
      let child := cs.getD idx ⟨0, false, 0, 0⟩
      if child.rc == 1 then some ((child.cpid : Int), cs.eraseIdx idx, some child.ecode)
      else none
    | none => some (-2, cs, none)

/-! ### sys_get_time (src/os/src/syscall/process.rs lines 156-175) -/

/-- Little-endian byte image of one usize field of the kernel TimeVal. -/
def usizeLE (n : Nat) : List Nat := (List.range 8).map (fun i => n / 256 ^ i % 256)

/-- TimeVal as built by `sys_get_time`: `sec` is the microsecond count
divided by 1000000, while `usec` is assigned the whole microsecond count. -/
structure TimeVal where
  sec : Nat
  usec : Nat
  deriving DecidableEq

/-- The TimeVal value `sys_get_time` constructs from the time `t` in
microseconds (src/os/src/syscall/process.rs lines 161-164). -/
def timeValOf (t : Nat) : TimeVal := ⟨t / 1000000, t⟩

/-- Byte image of the TimeVal struct: two little-endian usize fields. -/
def timeValBytes (tv : TimeVal) : List Nat := usizeLE tv.sec ++ usizeLE tv.usec

/-- Piecewise copy loop of `sys_get_time`: the source byte image is copied
into the scatter-gather segments returned by `translated_byte_buffer`, each
segment receiving the next `dst.len()` source bytes. -/
def copySegs (src : List Nat) : List Nat → List (List Nat)
  | [] => []
  | n :: rest => src.take n :: copySegs (src.drop n) rest

/-- Embedding of `sys_get_time`, parametrized by the current microsecond
count `t` and by the lengths of the physical segments the user buffer
translates to. Returns the syscall result and the bytes placed into each
segment. -/
def sysGetTime (t : Nat) (segLens : List Nat) : Int × List (List Nat) :=
  (0, copySegs (timeValBytes (timeValOf t)) segLens)

/-! ### sys_mmap (src/os/src/syscall/process.rs lines 208-224) -/

/-- Modelled from the spec: `PAGE_SIZE` comes from the kernel config module,
which is not under src/; pages are the standard 4096 bytes. -/
def PAGE_SIZE : Nat := 4096

/-- Memory-map permission flags accumulated by `sys_mmap`: the `MapPermission`
bits U, R, W, X. -/
structure MapPerm where
  u : Bool
  r : Bool
  w : Bool
  x : Bool
  deriving DecidableEq

/-- Embedding of `sys_mmap`: the guard rejects an unaligned start, a port
with bits above the low 3 (the usize-width complement mask `!7`), or a port
with no low bit set, returning -1 (`none` here); otherwise the permission set
is computed and the mapping is delegated to `current_task_mmap` (outside
src/), recorded here as the requested arguments. -/
def sysMmap (start len port : Nat) : Option (Nat × Nat × MapPerm) :=
  if start &&& (PAGE_SIZE - 1) != 0 || port &&& (2 ^ 64 - 8) != 0 || port &&& 7 == 0 then
    none
  else
    some (start, len, ⟨true, port &&& 1 != 0, port &&& 2 != 0, port &&& 4 != 0⟩)

/-! ### easy-fs virtual inode layer (src/easy-fs/src/vfs.rs) -/

/-- Size of an on-disk directory entry in bytes. -/
def DIRENT_SZ : Nat := 32

/-- Directory entry: 27-byte NUL-padded name plus inode id. Names are
modelled as strings; the kernel writes and compares them NUL-trimmed. -/
structure DirEnt where
  name : String
  inodeId : Nat
  deriving DecidableEq

/-- The all-zero directory entry `DirEntry::empty()`. -/
def emptyEnt : DirEnt := ⟨"", 0⟩

/-- On-disk inode as the vfs layer sees it: `isDir` and `links` mirror the
DiskInode type and links fields; `fsize` is `size` in bytes. A directory's
payload is its slot array `entries` (slot i lives at byte offset i*32, the
live slots are those below `fsize / 32`); a file's payload is its byte list
`fdata`. -/
structure Ino where
  isDir : Bool
  links : Nat
  fsize : Nat
  entries : List DirEnt
  fdata : List Nat
  deriving DecidableEq

/-- Inode used as the out-of-range default of list lookups. -/
def emptyIno : Ino := ⟨false, 0, 0, [], []⟩

/-- Filesystem state: the inode table indexed by inode id
(`get_disk_inode_pos` maps an id to a block and offset; here the id indexes
the table directly), plus a count of `block_cache_sync_all` flushes. -/
structure FS where
  inodes : List Ino
  flushes : Nat
  deriving DecidableEq

/-- The inode with id `i`. -/
def inoAt (fs : FS) (i : Nat) : Ino := fs.inodes.getD i emptyIno

/-- The live directory entries: the slots below `size / DIRENT_SZ`. -/
def liveEntries (ino : Ino) : List DirEnt := ino.entries.take (ino.fsize / DIRENT_SZ)

/-- Embedding of `find_inode_id` (src/easy-fs/src/vfs.rs lines 72-87): scan
the live entries in order and return the inode id of the first whose name
matches. -/
def findInodeId (ino : Ino) (nm : String) : Option Nat :=
  ((liveEntries ino).find? (fun e => e.name == nm)).map (fun e => e.inodeId)

/-- Modelled from the spec: `DiskInode::write_at` at entry granularity
(easy-fs layout, not under src/): a write of entry `e` at slot `i` is
clamped to `size`, so it stores the slot when the 32-byte record fits below
`size`, and does nothing when the offset is at or past `size` (directory
sizes are multiples of 32, so no partial record arises). -/
def writeEntryAt (ino : Ino) (i : Nat) (e : DirEnt) : Ino :=
  if (i + 1) * DIRENT_SZ ≤ ino.fsize then { ino with entries := ino.entries.set i e } else ino

/-- Modelled from the spec: the `Inode::increase_size` (src/easy-fs/src/vfs.rs
lines 113-128) and `DiskInode::increase_size` (not under src/) pair at entry
granularity, the block allocation being invisible at this level: grow `size`
to `newSize` unless it is already larger, extending the slot array so that
every live slot exists. -/
def growDir (ino : Ino) (newSize : Nat) : Ino :=
  if newSize < ino.fsize then ino
  else { ino with fsize := newSize,
                  entries := ino.entries ++
                    List.replicate (newSize / DIRENT_SZ - ino.entries.length) emptyEnt }

/-- A freshly initialized File DiskInode: `initialize(DiskInodeType::File)`
(easy-fs layout, not under src/; modelled from the spec: links start at 1,
size 0, empty payload). -/
def initFileIno : Ino := ⟨false, 1, 0, [], []⟩

/-- Embedding of `create` (src/easy-fs/src/vfs.rs lines 130-176): reject an
existing name with None; otherwise allocate a fresh inode id (`alloc_inode`,
modelled from the spec as the next unused table index), initialize it as a
File, grow this directory by one entry, append DirEntry(name, new_id), flush
the block cache, and return the id the new handle points at. -/
def create (fs : FS) (dirId : Nat) (nm : String) : Option Nat × FS :=
  let dirIno := inoAt fs dirId
  if (findInodeId dirIno nm).isSome then (none, fs)
  else
    let newId := fs.inodes.length
    let fs1 : FS := { fs with inodes := fs.inodes ++ [initFileIno] }
    let dirIno1 := inoAt fs1 dirId
    let cnt := dirIno1.fsize / DIRENT_SZ
    let grown := growDir dirIno1 ((cnt + 1) * DIRENT_SZ)
    let dirIno2 := writeEntryAt grown cnt ⟨nm, newId⟩
    (some newId, { inodes := fs1.inodes.set dirId dirIno2, flushes := fs1.flushes + 1 })

/-- Embedding of `create_link` (src/easy-fs/src/vfs.rs lines 224-245): find
src in this directory (-1 if absent), increment the target DiskInode's link
count (u16, wrapping), then append DirEntry(new_name, id) at the end of the
directory. There is no duplicate check on new_name. -/
def createLink (fs : FS) (dirId : Nat) (src newName : String) : Int × FS :=
  let dirIno := inoAt fs dirId
  match findInodeId dirIno src with
  | none => (-1, fs)
  | some id =>
    let t := inoAt fs id
    let fs1 : FS := { fs with inodes := fs.inodes.set id { t with links := (t.links + 1) % 65536 } }
    let dirIno1 := inoAt fs1 dirId
    let cnt := dirIno1.fsize / DIRENT_SZ
    let grown := growDir dirIno1 ((cnt + 1) * DIRENT_SZ)
    let dirIno2 := writeEntryAt grown cnt ⟨newName, id⟩
    (0, { fs1 with inodes := fs1.inodes.set dirId dirIno2 })

/-- The sequential entry writes `for i in .. { write_at(i * DIRENT_SZ,
new_entries[i]) }` of `unlinkat`. -/
def writeEntriesFrom (ino : Ino) (i : Nat) : List DirEnt → Ino
  | [] => ino
  | e :: rest => writeEntriesFrom (writeEntryAt ino i e) (i + 1) rest

/-- Embedding of `Inode::clear` (src/easy-fs/src/vfs.rs lines 210-221)
applied to the unlink target: truncate to size 0, releasing the whole
payload, and flush the cache. -/
def clearIno (fs : FS) (id : Nat) : FS :=
  let t := inoAt fs id
  { inodes := fs.inodes.set id { t with fsize := 0, entries := [], fdata := [] },
    flushes := fs.flushes + 1 }

/-- The directory-compaction tail of `unlinkat` (src/easy-fs/src/vfs.rs lines
272-287): read the live entries, keep those whose name differs from `path`,
write the kept list back over slots 0..num_entries-2, shrink `size` by 32,
and write an empty record at the old last slot (a no-op, that offset being at
the new size). The kernel indexes `new_entries[i]` for i below num_entries-1
and panics if several live entries share the name; the model writes the kept
entries, and the theorems assume the unique-name invariant, under which both
agree. -/
def compactDir (d : Ino) (path : String) : Ino :=
  let n := d.fsize / DIRENT_SZ
  let kept := (liveEntries d).filter (fun e => e.name != path)
  let d3 := writeEntriesFrom d 0 (kept.take (n - 1))
  let d4 : Ino := { d3 with fsize := d3.fsize - DIRENT_SZ }
  writeEntryAt d4 (n - 1) emptyEnt

/-- Embedding of `unlinkat` (src/easy-fs/src/vfs.rs lines 248-290): find the
entry (-1 if absent) and decrement the target's link count (u16, wrapping);
if it reached 0, clear the target's payload; then compact the directory via
`compactDir`. -/
def unlinkat (fs : FS) (dirId : Nat) (path : String) : Int × FS :=
  let dirIno := inoAt fs dirId
  match findInodeId dirIno path with
  | none => (-1, fs)
  | some id =>
    let t := inoAt fs id
    let newLinks := (t.links + 65535) % 65536
    let fs1 : FS := { fs with inodes := fs.inodes.set id { t with links := newLinks } }
    let fs2 := if newLinks == 0 then clearIno fs1 id else fs1
    let dirIno2 := inoAt fs2 dirId
    (0, { fs2 with inodes := fs2.inodes.set dirId (compactDir dirIno2 path) })

/-- Embedding of `Inode::write_at` (src/easy-fs/src/vfs.rs lines 200-208) on
a file: grow the inode so that `offset + buf.len()` fits (fresh blocks
modelled as zero bytes), then store the buffer at `offset`
(`DiskInode::write_at`, modelled from the spec: the caller has grown the
inode, so the whole buffer lands inside the file), and flush. -/
def inoWriteAt (ino : Ino) (offset : Nat) (buf : List Nat) : Ino :=
  let newSize := max ino.fsize (offset + buf.length)
  let grown := ino.fdata ++ List.replicate (newSize - ino.fdata.length) 0
  { ino with fsize := newSize,
             fdata := grown.take offset ++ buf ++ grown.drop (offset + buf.length) }

/-- Embedding of `Inode::read_at` (src/easy-fs/src/vfs.rs lines 195-198),
forwarding to `DiskInode::read_at` (modelled from the spec: the read range
is clamped to `size`): the bytes placed into a buffer of length `len`. -/
def inoReadAt (ino : Ino) (offset len : Nat) : List Nat :=
  ((ino.fdata.take ino.fsize).drop offset).take len

/-- Concrete filesystem used for the claim C2 counterexample and witnesses:
inode 0 is the root directory with three live entries a, b, c naming the
file inodes 1, 2, 3 (each with two links so no erase is triggered). -/
def fs0 : FS :=
  ⟨[⟨true, 1, 96, [⟨"a", 1⟩, ⟨"b", 2⟩, ⟨"c", 3⟩], []⟩,
    ⟨false, 2, 0, [], []⟩, ⟨false, 2, 0, [], []⟩, ⟨false, 2, 0, [], []⟩], 0⟩

/-- Variant of `fs0` in which file inode 1 (entry a) has a single link, so
that unlinking a clears it. -/
def fs0c : FS :=
  ⟨[⟨true, 1, 96, [⟨"a", 1⟩, ⟨"b", 2⟩, ⟨"c", 3⟩], []⟩,
    ⟨false, 1, 4, [], [9, 9, 9, 9]⟩, ⟨false, 2, 0, [], []⟩, ⟨false, 2, 0, [], []⟩], 0⟩

/-- Concrete file inode for the claim C8 witness. -/
def fileIno : Ino := ⟨false, 1, 3, [], [10, 20, 30]⟩

/-! ### Theorems -/

theorem getD_set_self {α : Type} (xs : List α) (i : Nat) (v d : α) (h : i < xs.length) :
    (xs.set i v).getD i d = v := by
  induction xs generalizing i with
  | nil => simp at h
  | cons a l ih =>
    cases i with
    | zero => rfl
    | succ n => simpa using ih n (by simpa using h)

theorem updAt_getD (xs : List Nat) (i : Nat) (f : Nat → Nat) (h : i < xs.length) :
    (updAt xs i f).getD i 0 = f (xs.getD i 0) :=
  getD_set_self xs i (f (xs.getD i 0)) 0 h

theorem updAt2_getD (m : List (List Nat)) (t r : Nat) (f : Nat → Nat)
    (ht : t < m.length) (hr : r < (m.getD t []).length) :
    ((updAt2 m t r f).getD t []).getD r 0 = f ((m.getD t []).getD r 0) := by
  unfold updAt2
  rw [getD_set_self m t _ [] ht]
  exact updAt_getD _ r f hr

theorem sysMutexLock_snd (st : PInner) (t m : Nat) :
    (sysMutexLock st t m).2 = acquireUpdate st t m := by
  simp only [sysMutexLock]
  split <;> rfl

theorem sysSemaphoreDown_snd (st : PInner) (t s : Nat) :
    (sysSemaphoreDown st t s).2 = acquireUpdate st t s := by
  simp only [sysSemaphoreDown]
  split <;> rfl

theorem acquireUpdate_avail_pos (st : PInner) (t r : Nat)
    (hr : r < st.available.length) (h : 0 < availAt st r) (hb : availAt st r < U32MOD) :
    availAt (acquireUpdate st t r) r = availAt st r - 1 := by
  unfold acquireUpdate availAt at *
  rw [if_pos h]
  show (updAt st.available r decW).getD r 0 = st.available.getD r 0 - 1
  rw [updAt_getD _ r decW hr]
  unfold decW U32MOD at *
  omega

theorem acquireUpdate_alloc_pos (st : PInner) (t r : Nat)
    (ht : t < st.allocated.length) (hr : r < (st.allocated.getD t []).length)
    (h : 0 < availAt st r) (hb : allocAt st t r + 1 < U32MOD) :
    allocAt (acquireUpdate st t r) t r = allocAt st t r + 1 := by
  unfold acquireUpdate availAt allocAt at *
  rw [if_pos h]
  show ((updAt2 st.allocated t r incW).getD t []).getD r 0 =
    (st.allocated.getD t []).getD r 0 + 1
  rw [updAt2_getD _ t r incW ht hr]
  unfold incW U32MOD at *
  omega

theorem acquireUpdate_need_zero (st : PInner) (t r : Nat)
    (ht : t < st.need.length) (hr : r < (st.need.getD t []).length)
    (h : availAt st r = 0) (hb : needAt st t r + 1 < U32MOD) :
    needAt (acquireUpdate st t r) t r = needAt st t r + 1 := by
  unfold acquireUpdate availAt needAt at *
  rw [if_neg (by omega)]
  show ((updAt2 st.need t r incW).getD t []).getD r 0 = (st.need.getD t []).getD r 0 + 1
  rw [updAt2_getD _ t r incW ht hr]
  unfold incW U32MOD at *
  omega

/-- Claim C3: on every acquire (sys_mutex_lock, sys_semaphore_down), if
`Available[r] > 0` at entry then `Available[r]` is decremented by 1 and
`Allocation[t][r]` incremented by 1, otherwise `Need[t][r]` is incremented
by 1; and on every release (sys_mutex_unlock, sys_semaphore_up),
`Available[r]` is incremented by 1 and `Allocation[t][r]` decremented by 1.
Stated over the shared accounting tables, with in-bounds indices and counter
values inside the u32 range; the acquire half is unconditional in the
thread's prior holdings, while the Allocation decrement of the release half
is stated for a thread holding at least one unit, as a release presupposes. -/
theorem claim_C3 (st : PInner) (t r : Nat)
    (hr : r < st.available.length)
    (ht : t < st.allocated.length) (hr2 : r < (st.allocated.getD t []).length)
    (ht3 : t < st.need.length) (hr3 : r < (st.need.getD t []).length)
    (hb1 : availAt st r + 1 < U32MOD)
    (hb2 : allocAt st t r + 1 < U32MOD)
    (hb4 : needAt st t r + 1 < U32MOD) :
    ((0 < availAt st r →
        availAt (sysMutexLock st t r).2 r = availAt st r - 1 ∧
        allocAt (sysMutexLock st t r).2 t r = allocAt st t r + 1 ∧
        availAt (sysSemaphoreDown st t r).2 r = availAt st r - 1 ∧
        allocAt (sysSemaphoreDown st t r).2 t r = allocAt st t r + 1) ∧
      (availAt st r = 0 →
        needAt (sysMutexLock st t r).2 t r = needAt st t r + 1 ∧
        needAt (sysSemaphoreDown st t r).2 t r = needAt st t r + 1)) ∧
    (availAt (sysMutexUnlock st t r).2 r = availAt st r + 1 ∧
     availAt (sysSemaphoreUp st t r).2 r = availAt st r + 1 ∧
     (0 < allocAt st t r →
       allocAt (sysMutexUnlock st t r).2 t r = allocAt st t r - 1 ∧
       allocAt (sysSemaphoreUp st t r).2 t r = allocAt st t r - 1)) := by
  have hbav : availAt st r < U32MOD := by omega
  constructor
  · constructor
    · intro h
      rw [sysMutexLock_snd, sysSemaphoreDown_snd]
      exact ⟨acquireUpdate_avail_pos st t r hr h hbav,
        acquireUpdate_alloc_pos st t r ht hr2 h hb2,
        acquireUpdate_avail_pos st t r hr h hbav,
        acquireUpdate_alloc_pos st t r ht hr2 h hb2⟩
    · intro h
      rw [sysMutexLock_snd, sysSemaphoreDown_snd]
      exact ⟨acquireUpdate_need_zero st t r ht3 hr3 h hb4,
        acquireUpdate_need_zero st t r ht3 hr3 h hb4⟩
  · have hg1 : st.available.getD r 0 + 1 < U32MOD := hb1
    have hg2 : (st.allocated.getD t []).getD r 0 + 1 < U32MOD := hb2
    have havail : availAt (sysMutexUnlock st t r).2 r = availAt st r + 1 := by
      unfold sysMutexUnlock availAt
      show (updAt st.available r incW).getD r 0 = st.available.getD r 0 + 1
      rw [updAt_getD _ r incW hr]
      unfold incW U32MOD at hg1 ⊢
      omega
    have havail2 : availAt (sysSemaphoreUp st t r).2 r = availAt st r + 1 := by
      unfold sysSemaphoreUp availAt
      show (updAt st.available r incW).getD r 0 = st.available.getD r 0 + 1
      rw [updAt_getD _ r incW hr]
      unfold incW U32MOD at hg1 ⊢
      omega
    refine ⟨havail, havail2, ?_⟩
    intro hb3
    have hg3 : 0 < (st.allocated.getD t []).getD r 0 := hb3
    have halloc : allocAt (sysMutexUnlock st t r).2 t r = allocAt st t r - 1 := by
      unfold sysMutexUnlock allocAt
      show ((updAt2 st.allocated t r decW).getD t []).getD r 0 =
        (st.allocated.getD t []).getD r 0 - 1
      rw [updAt2_getD _ t r decW ht hr2]
      unfold decW U32MOD at hg2 ⊢
      omega
    have halloc2 : allocAt (sysSemaphoreUp st t r).2 t r = allocAt st t r - 1 := by
      unfold sysSemaphoreUp allocAt
      show ((updAt2 st.allocated t r decW).getD t []).getD r 0 =
        (st.allocated.getD t []).getD r 0 - 1
      rw [updAt2_getD _ t r decW ht hr2]
      unfold decW U32MOD at hg2 ⊢
      omega
    exact ⟨halloc, halloc2⟩

/-- Claim C3 witness: the theorem evaluated at three concrete one-thread
states: `stC3a` (a first acquire, with the thread holding nothing yet),
`stC3b` (resource exhausted, the request is recorded in Need) and `stC3`
(the thread holds one unit and releases it). -/
theorem claim_C3_witness :
    0 < availAt stC3a 0 ∧
    allocAt stC3a 0 0 = 0 ∧
    availAt (sysMutexLock stC3a 0 0).2 0 = availAt stC3a 0 - 1 ∧
    allocAt (sysMutexLock stC3a 0 0).2 0 0 = allocAt stC3a 0 0 + 1 ∧
    availAt (sysSemaphoreDown stC3a 0 0).2 0 = availAt stC3a 0 - 1 ∧
    allocAt (sysSemaphoreDown stC3a 0 0).2 0 0 = allocAt stC3a 0 0 + 1 ∧
    availAt stC3b 0 = 0 ∧
    needAt (sysMutexLock stC3b 0 0).2 0 0 = needAt stC3b 0 0 + 1 ∧
    needAt (sysSemaphoreDown stC3b 0 0).2 0 0 = needAt stC3b 0 0 + 1 ∧
    availAt (sysMutexUnlock stC3 0 0).2 0 = availAt stC3 0 + 1 ∧
    availAt (sysSemaphoreUp stC3 0 0).2 0 = availAt stC3 0 + 1 ∧
    0 < allocAt stC3 0 0 ∧
    allocAt (sysMutexUnlock stC3 0 0).2 0 0 = allocAt stC3 0 0 - 1 ∧
    allocAt (sysSemaphoreUp stC3 0 0).2 0 0 = allocAt stC3 0 0 - 1 := by
  have h1 := claim_C3 stC3a 0 0 (by decide) (by decide) (by decide) (by decide) (by decide)
    (by decide) (by decide) (by decide)
  have h2 := claim_C3 stC3b 0 0 (by decide) (by decide) (by decide) (by decide) (by decide)
    (by decide) (by decide) (by decide)
  have h3 := claim_C3 stC3 0 0 (by decide) (by decide) (by decide) (by decide) (by decide)
    (by decide) (by decide) (by decide)
  have ha := h1.1.1 (by decide)
  have hb := h2.1.2 (by decide)
  have hc := h3.2.2.2 (by decide)
  exact ⟨by decide, by decide, ha.1, ha.2.1, ha.2.2.1, ha.2.2.2, by decide, hb.1, hb.2,
    h3.2.1, h3.2.2.1, by decide, hc.1, hc.2⟩

/-- Claim C1 counterexample: in state `stDead`, thread 1 (holding mutex 1)
requests mutex 0; the Banker check reports unsafe and the call returns
-0xDEAD, but the detector tables are NOT restored to their pre-call values:
the Need increment survives the return. -/
theorem claim_C1_counterexample :
    (sysMutexLock stDead 1 0).1 = -0xdead ∧ (sysMutexLock stDead 1 0).2 ≠ stDead := by
  decide

/-- Claim C1 (amended): for every call to sys_mutex_lock or
sys_semaphore_down made while enable_deadlock_detect is true, if the Banker
safety check (run on the already-updated tables) finds the state unsafe, the
call returns the sentinel -0xDEAD without blocking, but the detector-table
update performed before the check (the Need increment, or the
Available/Allocation transfer) is left in place rather than rolled back. -/
theorem claim_C1_amended (st : PInner) (t r : Nat)
    (hE : st.enableDetect = true)
    (hU : checkDeadlock (acquireUpdate st t r).available (acquireUpdate st t r).allocated
      (acquireUpdate st t r).need = true) :
    sysMutexLock st t r = (-0xdead, acquireUpdate st t r) ∧
    sysSemaphoreDown st t r = (-0xdead, acquireUpdate st t r) := by
  have hE1 : (acquireUpdate st t r).enableDetect = true := by
    unfold acquireUpdate
    split <;> simpa using hE
  constructor
  · simp only [sysMutexLock]
    rw [hE1, hU]
    rfl
  · simp only [sysSemaphoreDown]
    rw [hE1, hU]
    rfl

/-- Claim C1 witness: the amended theorem evaluated at the concrete deadlock
state `stDead`. -/
theorem claim_C1_witness :
    stDead.enableDetect = true ∧
    checkDeadlock (acquireUpdate stDead 1 0).available (acquireUpdate stDead 1 0).allocated
      (acquireUpdate stDead 1 0).need = true ∧
    sysMutexLock stDead 1 0 = (-0xdead, acquireUpdate stDead 1 0) ∧
    sysSemaphoreDown stDead 1 0 = (-0xdead, acquireUpdate stDead 1 0) :=
  ⟨rfl, by decide, (claim_C1_amended stDead 1 0 rfl (by decide)).1,
    (claim_C1_amended stDead 1 0 rfl (by decide)).2⟩

/-- Claim C4: sys_waitpid returns -1 when no child matches pid (pid = -1
matching any child); returns -2 when a child matches but no matching child is
a zombie; and otherwise removes the first matching zombie child from the
children list (given that the removed child is the sole remaining strong
reference, which the kernel asserts), writes its exit code through the user
pointer and returns its pid. -/
theorem claim_C4 (pid : Int) (cs : List ChildProc) :
    (cs.any (pidMatches pid) = false → sysWaitpid pid cs = some (-1, cs, none)) ∧
    (cs.any (pidMatches pid) = true →
      cs.findIdx? (fun p => p.zombie && pidMatches pid p) = none →
      sysWaitpid pid cs = some (-2, cs, none)) ∧
    (∀ idx, cs.findIdx? (fun p => p.zombie && pidMatches pid p) = some idx →
      (cs.getD idx ⟨0, false, 0, 0⟩).rc = 1 →
      cs.any (pidMatches pid) = true →
      sysWaitpid pid cs = some (((cs.getD idx ⟨0, false, 0, 0⟩).cpid : Int),
        cs.eraseIdx idx, some (cs.getD idx ⟨0, false, 0, 0⟩).ecode)) := by
  refine ⟨?_, ?_, ?_⟩
  · intro h
    simp [sysWaitpid, h]
  · intro h1 h2
    simp [sysWaitpid, h1, h2]
  · intro idx hidx hrc hany
    simp only [List.getD, List.get?_eq_getElem?] at hrc
    simp [sysWaitpid, hany, hidx, hrc, List.getD]

/-- Claim C4 witness: the three branches of the theorem evaluated on concrete
children lists. -/
theorem claim_C4_witness :
    ([⟨3, false, 0, 2⟩] : List ChildProc).any (pidMatches 7) = false ∧
    sysWaitpid 7 [⟨3, false, 0, 2⟩] = some (-1, [⟨3, false, 0, 2⟩], none) ∧
    sysWaitpid 3 [⟨3, false, 0, 2⟩] = some (-2, [⟨3, false, 0, 2⟩], none) ∧
    sysWaitpid (-1) [⟨3, false, 0, 2⟩, ⟨5, true, 42, 1⟩] =
      some (5, [⟨3, false, 0, 2⟩], some 42) :=
  ⟨by decide, (claim_C4 7 [⟨3, false, 0, 2⟩]).1 (by decide),
    (claim_C4 3 [⟨3, false, 0, 2⟩]).2.1 (by decide) (by decide),
    (claim_C4 (-1) [⟨3, false, 0, 2⟩, ⟨5, true, 42, 1⟩]).2.2 1 (by decide) (by decide) (by decide)⟩

/-- Claim C10: whenever sys_waitpid returns -1 (no matching child) or -2
(matching child not yet a zombie), the children list is unchanged and nothing
is written through the user exit-code pointer. -/
theorem claim_C10 (pid : Int) (cs cs2 : List ChildProc) (r : Int) (w : Option Int)
    (h : sysWaitpid pid cs = some (r, cs2, w)) (hr : r = -1 ∨ r = -2) :
    cs2 = cs ∧ w = none := by
  unfold sysWaitpid at h
  cases hany : cs.any (pidMatches pid) with
  | false =>
    rw [hany] at h
    simp only [Bool.not_false, if_pos, Option.some.injEq, Prod.mk.injEq] at h
    exact ⟨h.2.1.symm, h.2.2.symm⟩
  | true =>
    rw [hany] at h
    simp only [Bool.not_true, Bool.false_eq_true, if_false] at h
    cases hidx : cs.findIdx? (fun p => p.zombie && pidMatches pid p) with
    | none =>
      rw [hidx] at h
      simp only [Option.some.injEq, Prod.mk.injEq] at h
      exact ⟨h.2.1.symm, h.2.2.symm⟩
    | some idx =>
      rw [hidx] at h
      simp only [] at h
      by_cases hrc : ((cs.getD idx ⟨0, false, 0, 0⟩).rc == 1) = true
      · rw [if_pos hrc] at h
        simp only [Option.some.injEq, Prod.mk.injEq] at h
        exfalso
        have hcast : (0 : Int) ≤ ((cs.getD idx ⟨0, false, 0, 0⟩).cpid : Int) :=
          Int.ofNat_nonneg _
        rcases hr with h1 | h1 <;> rw [h1] at h <;> omega
      · rw [if_neg hrc] at h
        exact absurd h (by simp)

/-- Claim C10 witness: a concrete -1 return leaving the children list and the
user pointer untouched. -/
theorem claim_C10_witness :
    sysWaitpid 7 [⟨3, false, 0, 2⟩] = some (-1, [⟨3, false, 0, 2⟩], none) ∧
    ((-1 : Int) = -1 ∨ (-1 : Int) = -2) ∧
    ([⟨3, false, 0, 2⟩] : List ChildProc) = [⟨3, false, 0, 2⟩] ∧
    (none : Option Int) = none :=
  ⟨by decide, Or.inl rfl,
    (claim_C10 7 [⟨3, false, 0, 2⟩] [⟨3, false, 0, 2⟩] (-1) none (by decide) (Or.inl rfl)).1,
    (claim_C10 7 [⟨3, false, 0, 2⟩] [⟨3, false, 0, 2⟩] (-1) none (by decide) (Or.inl rfl)).2⟩

theorem copySegs_flatten (src : List Nat) (segs : List Nat) :
    (copySegs src segs).flatten = src.take segs.sum := by
  induction segs generalizing src with
  | nil => simp [copySegs]
  | cons n rest ih =>
    simp only [copySegs, List.flatten_cons, List.sum_cons, ih]
    rw [← List.take_add]

/-- Claim C9: sys_get_time writes a TimeVal whose sec field is the total
elapsed microseconds divided by 1000000 and whose usec field is the full
microsecond count (not reduced mod 1000000, so it may exceed 999999), copies
the struct into the user buffer piecewise so a buffer split across two pages
is still filled completely, and returns 0. Stated for any scatter-gather
split whose segment lengths sum to the 16-byte struct size. -/
theorem claim_C9 (t : Nat) (segLens : List Nat) (h : segLens.sum = 16) :
    (sysGetTime t segLens).1 = 0 ∧
    (timeValOf t).sec = t / 1000000 ∧
    (timeValOf t).usec = t ∧
    ((sysGetTime t segLens).2).flatten = usizeLE (t / 1000000) ++ usizeLE t := by
  refine ⟨rfl, rfl, rfl, ?_⟩
  show (copySegs (timeValBytes (timeValOf t)) segLens).flatten = _
  rw [copySegs_flatten, h]
  have hlen : (timeValBytes (timeValOf t)).length = 16 := by
    simp [timeValBytes, usizeLE]
  rw [List.take_of_length_le (le_of_eq hlen)]
  rfl

/-- Claim C9 witness: the theorem evaluated at 2500000 microseconds with the
user buffer split 7 + 9 across a page boundary. -/
theorem claim_C9_witness :
    ([7, 9] : List Nat).sum = 16 ∧
    (sysGetTime 2500000 [7, 9]).1 = 0 ∧
    ((sysGetTime 2500000 [7, 9]).2).flatten = usizeLE 2 ++ usizeLE 2500000 :=
  ⟨by decide, (claim_C9 2500000 [7, 9] (by decide)).1,
    (claim_C9 2500000 [7, 9] (by decide)).2.2.2⟩

theorem and_page_mask_eq_mod (n : Nat) : n &&& (PAGE_SIZE - 1) = n % PAGE_SIZE := by
  have h := Nat.and_pow_two_sub_one_eq_mod n 12
  norm_num at h
  simpa [PAGE_SIZE] using h

theorem and_7_eq_mod (n : Nat) : n &&& 7 = n % 8 := by
  have h := Nat.and_pow_two_sub_one_eq_mod n 3
  norm_num at h
  exact h

theorem and_high_mask_ne_zero (port : Nat) (hp : port < 2 ^ 64) :
    port &&& (2 ^ 64 - 8) ≠ 0 ↔ 8 ≤ port := by
  have hmask : ∀ i, Nat.testBit (2 ^ 64 - 8) i = (decide (i < 64) && !Nat.testBit 7 i) :=
    fun i => Nat.testBit_two_pow_sub_succ (by norm_num) i
  have h7 : ∀ i, Nat.testBit 7 i = decide (i < 3) := by
    intro i
    have := Nat.testBit_two_pow_sub_one 3 i
    norm_num at this
    exact this
  constructor
  · intro hne
    obtain ⟨i, hi⟩ := Nat.ne_zero_implies_bit_true hne
    rw [Nat.testBit_and, Bool.and_eq_true, hmask, h7] at hi
    have hi3 : 3 ≤ i := by
      rcases hi with ⟨_, hb⟩
      simp only [Bool.and_eq_true, Bool.not_eq_true', decide_eq_false_iff_not] at hb
      omega
    calc (8 : Nat) = 2 ^ 3 := by norm_num
    _ ≤ 2 ^ i := Nat.pow_le_pow_right (by norm_num) hi3
    _ ≤ port := Nat.testBit_implies_ge hi.1
  · intro h8 h0
    have hfalse : ∀ i, 3 ≤ i → Nat.testBit port i = false := by
      intro i hi3
      by_cases h64 : i < 64
      · by_contra hbit
        rw [Bool.not_eq_false] at hbit
        have : Nat.testBit (port &&& (2 ^ 64 - 8)) i = true := by
          rw [Nat.testBit_and, hmask, h7, hbit]
          simp
          omega
        rw [h0, Nat.zero_testBit] at this
        exact Bool.false_ne_true this
      · exact Nat.testBit_lt_two_pow
          (lt_of_lt_of_le hp (Nat.pow_le_pow_right (by norm_num) (by omega)))
    have : port < 2 ^ 3 := Nat.lt_pow_two_of_testBit port hfalse
    omega

/-- Claim C5: sys_mmap returns -1 exactly when start is not page-aligned, or
port (a 64-bit usize) has a bit set outside the low 3 (equivalently port is
at least 8), or no low bit of port is set; otherwise it requests the mapping
of the given range with permission U plus R if port&1, W if port&2, X if
port&4. -/
theorem claim_C5 (start len port : Nat) (hp : port < 2 ^ 64) :
    (sysMmap start len port = none ↔
      (start % PAGE_SIZE ≠ 0 ∨ 8 ≤ port ∨ port % 8 = 0)) ∧
    (∀ s l p, sysMmap start len port = some (s, l, p) →
      s = start ∧ l = len ∧ p.u = true ∧
      p.r = (port &&& 1 != 0) ∧ p.w = (port &&& 2 != 0) ∧ p.x = (port &&& 4 != 0)) := by
  have hcond : (start &&& (PAGE_SIZE - 1) != 0 || port &&& (2 ^ 64 - 8) != 0 ||
      port &&& 7 == 0) = true ↔
      (start % PAGE_SIZE ≠ 0 ∨ 8 ≤ port ∨ port % 8 = 0) := by
    rw [Bool.or_eq_true, Bool.or_eq_true]
    rw [bne_iff_ne, bne_iff_ne, beq_iff_eq]
    rw [and_page_mask_eq_mod, and_7_eq_mod]
    rw [and_high_mask_ne_zero port hp]
    exact or_assoc
  cases hb : (start &&& (PAGE_SIZE - 1) != 0 || port &&& (2 ^ 64 - 8) != 0 ||
      port &&& 7 == 0) with
  | true =>
    constructor
    · constructor
      · intro _
        exact hcond.mp hb
      · intro _
        unfold sysMmap
        rw [if_pos hb]
    · intro s l p hsome
      rw [sysMmap, if_pos hb] at hsome
      exact absurd hsome (by simp)
  | false =>
    constructor
    · constructor
      · intro hnone
        exfalso
        rw [sysMmap, if_neg (by rw [hb]; exact Bool.false_ne_true)] at hnone
        exact absurd hnone (by simp)
      · intro hdisj
        exfalso
        have hx := hcond.mpr hdisj
        rw [hb] at hx
        exact Bool.false_ne_true hx
    · intro s l p hsome
      rw [sysMmap, if_neg (by rw [hb]; exact Bool.false_ne_true)] at hsome
      simp only [Option.some.injEq, Prod.mk.injEq] at hsome
      obtain ⟨hs, hl, hp2⟩ := hsome
      subst hs hl
      rw [← hp2]
      exact ⟨rfl, rfl, rfl, rfl, rfl, rfl⟩

/-- Claim C5 witness: the theorem evaluated at an aligned start with
port = 3 (read + write). -/
theorem claim_C5_witness :
    (3 : Nat) < 2 ^ 64 ∧
    (sysMmap 4096 8192 3 = none ↔
      ((4096 : Nat) % PAGE_SIZE ≠ 0 ∨ 8 ≤ (3 : Nat) ∨ (3 : Nat) % 8 = 0)) ∧
    ((4096 : Nat) = 4096 ∧ (8192 : Nat) = 8192 ∧
      (MapPerm.mk true true true false).u = true ∧
      (MapPerm.mk true true true false).r = ((3 : Nat) &&& 1 != 0) ∧
      (MapPerm.mk true true true false).w = ((3 : Nat) &&& 2 != 0) ∧
      (MapPerm.mk true true true false).x = ((3 : Nat) &&& 4 != 0)) :=
  ⟨by norm_num, (claim_C5 4096 8192 3 (by norm_num)).1,
    (claim_C5 4096 8192 3 (by norm_num)).2 4096 8192 ⟨true, true, true, false⟩ (by decide)⟩

theorem getD_set_ne {α : Type} (xs : List α) (i j : Nat) (v d : α) (h : i ≠ j) :
    (xs.set i v).getD j d = xs.getD j d := by
  simp [List.getD_eq_getElem?_getD, List.getElem?_set_ne h]

theorem getD_append_left {α : Type} (l1 l2 : List α) (i : Nat) (d : α) (h : i < l1.length) :
    (l1 ++ l2).getD i d = l1.getD i d := by
  simp [List.getD_eq_getElem?_getD, List.getElem?_append_left h]

theorem getD_concat_self {α : Type} (l : List α) (v d : α) :
    (l ++ [v]).getD l.length d = v := by
  simp [List.getD_eq_getElem?_getD, List.getElem?_concat_length]

theorem take_append_le {α : Type} (l1 l2 : List α) (n : Nat) (h : n ≤ l1.length) :
    (l1 ++ l2).take n = l1.take n := by
  induction l1 generalizing n with
  | nil =>
    have : n = 0 := by simpa using h
    simp [this]
  | cons a t ih =>
    cases n with
    | zero => simp
    | succ m => simp [ih m (by simpa using h)]

theorem take_set_succ {α : Type} (l : List α) (i : Nat) (e : α) (h : i < l.length) :
    (l.set i e).take (i + 1) = l.take i ++ [e] := by
  induction l generalizing i with
  | nil => simp at h
  | cons a t ih =>
    cases i with
    | zero => simp
    | succ n => simp [List.set, ih n (by simpa using h)]

/-- Entry writes never change the inode header or the file payload. -/
theorem writeEntryAt_fields (ino : Ino) (i : Nat) (e : DirEnt) :
    (writeEntryAt ino i e).fsize = ino.fsize ∧
    (writeEntryAt ino i e).isDir = ino.isDir ∧
    (writeEntryAt ino i e).links = ino.links ∧
    (writeEntryAt ino i e).fdata = ino.fdata := by
  unfold writeEntryAt
  split <;> exact ⟨rfl, rfl, rfl, rfl⟩

/-- Growing a well-formed directory by one slot and writing entry `e` there
appends `e` to its live entries and adds one entry size to its byte size. -/
theorem appendEntry_spec (d : Ino) (e : DirEnt)
    (hmod : d.fsize % DIRENT_SZ = 0) (hcap : d.fsize / DIRENT_SZ ≤ d.entries.length) :
    (writeEntryAt (growDir d ((d.fsize / DIRENT_SZ + 1) * DIRENT_SZ)) (d.fsize / DIRENT_SZ)
      e).fsize = d.fsize + DIRENT_SZ ∧
    liveEntries (writeEntryAt (growDir d ((d.fsize / DIRENT_SZ + 1) * DIRENT_SZ))
      (d.fsize / DIRENT_SZ) e) = liveEntries d ++ [e] := by
  have h32 : DIRENT_SZ = 32 := rfl
  have hmod32 : d.fsize % 32 = 0 := by rw [← h32]; exact hmod
  have hfs : d.fsize = (d.fsize / DIRENT_SZ) * DIRENT_SZ := by rw [h32]; omega
  have hngtfs : ¬ (d.fsize / DIRENT_SZ + 1) * DIRENT_SZ < d.fsize := by rw [h32]; omega
  have hdiv1 : (d.fsize / DIRENT_SZ + 1) * DIRENT_SZ / DIRENT_SZ = d.fsize / DIRENT_SZ + 1 := by
    rw [h32]; omega
  have hgrow : growDir d ((d.fsize / DIRENT_SZ + 1) * DIRENT_SZ) =
      { d with fsize := (d.fsize / DIRENT_SZ + 1) * DIRENT_SZ,
               entries := d.entries ++
                 List.replicate (d.fsize / DIRENT_SZ + 1 - d.entries.length) emptyEnt } := by
    unfold growDir
    rw [if_neg hngtfs, hdiv1]
  have hlen : d.fsize / DIRENT_SZ <
      (d.entries ++ List.replicate (d.fsize / DIRENT_SZ + 1 - d.entries.length) emptyEnt).length := by
    rw [List.length_append, List.length_replicate]
    omega
  have hwrite : writeEntryAt (growDir d ((d.fsize / DIRENT_SZ + 1) * DIRENT_SZ))
      (d.fsize / DIRENT_SZ) e =
      { d with fsize := (d.fsize / DIRENT_SZ + 1) * DIRENT_SZ,
               entries := (d.entries ++
                 List.replicate (d.fsize / DIRENT_SZ + 1 - d.entries.length) emptyEnt).set
                   (d.fsize / DIRENT_SZ) e } := by
    rw [hgrow]
    unfold writeEntryAt
    rw [if_pos (le_refl _)]
  rw [hwrite]
  constructor
  · show (d.fsize / DIRENT_SZ + 1) * DIRENT_SZ = d.fsize + DIRENT_SZ
    rw [h32]
    omega
  · show ((d.entries ++
        List.replicate (d.fsize / DIRENT_SZ + 1 - d.entries.length) emptyEnt).set
          (d.fsize / DIRENT_SZ) e).take ((d.fsize / DIRENT_SZ + 1) * DIRENT_SZ / DIRENT_SZ) =
      liveEntries d ++ [e]
    rw [hdiv1, take_set_succ _ _ _ hlen, take_append_le _ _ _ hcap]
    rfl

/-- Claim C7: create(name) returns None and leaves the filesystem unchanged
when an entry named name already exists; otherwise it allocates a fresh
inode id, initializes that DiskInode as a File with one link, grows the
directory by exactly one 32-byte entry appending DirEntry(name, new_id),
flushes the cache, and returns the new inode id. Stated for a directory with
a well-formed size (multiple of 32, all live slots present). -/
theorem claim_C7 (fs : FS) (dirId : Nat) (nm : String)
    (hdir : dirId < fs.inodes.length)
    (hmod : (inoAt fs dirId).fsize % DIRENT_SZ = 0)
    (hcap : (inoAt fs dirId).fsize / DIRENT_SZ ≤ (inoAt fs dirId).entries.length) :
    ((findInodeId (inoAt fs dirId) nm).isSome = true → create fs dirId nm = (none, fs)) ∧
    (findInodeId (inoAt fs dirId) nm = none →
      (create fs dirId nm).1 = some fs.inodes.length ∧
      inoAt (create fs dirId nm).2 fs.inodes.length = initFileIno ∧
      (inoAt (create fs dirId nm).2 dirId).fsize = (inoAt fs dirId).fsize + DIRENT_SZ ∧
      liveEntries (inoAt (create fs dirId nm).2 dirId) =
        liveEntries (inoAt fs dirId) ++ [⟨nm, fs.inodes.length⟩] ∧
      ((create fs dirId nm).2).flushes = fs.flushes + 1) := by
  constructor
  · intro h
    simp only [create]
    rw [if_pos h]
  · intro hn
    have hd1 : inoAt { fs with inodes := fs.inodes ++ [initFileIno] } dirId = inoAt fs dirId := by
      show (fs.inodes ++ [initFileIno]).getD dirId emptyIno = fs.inodes.getD dirId emptyIno
      exact getD_append_left _ _ _ _ hdir
    have hkey : create fs dirId nm = (some fs.inodes.length,
        ⟨(fs.inodes ++ [initFileIno]).set dirId
          (writeEntryAt (growDir (inoAt fs dirId)
            (((inoAt fs dirId).fsize / DIRENT_SZ + 1) * DIRENT_SZ))
            ((inoAt fs dirId).fsize / DIRENT_SZ) ⟨nm, fs.inodes.length⟩),
         fs.flushes + 1⟩) := by
      simp only [create]
      rw [if_neg (by rw [hn]; simp)]
      rw [hd1]
    have hsets : dirId < (fs.inodes ++ [initFileIno]).length := by
      rw [List.length_append]
      omega
    have happ := appendEntry_spec (inoAt fs dirId) ⟨nm, fs.inodes.length⟩ hmod hcap
    refine ⟨by rw [hkey], ?_, ?_, ?_, by rw [hkey]⟩
    · rw [hkey]
      show ((fs.inodes ++ [initFileIno]).set dirId _).getD fs.inodes.length emptyIno = initFileIno
      rw [getD_set_ne _ _ _ _ _ (Nat.ne_of_lt hdir)]
      exact getD_concat_self _ _ _
    · rw [hkey]
      show (((fs.inodes ++ [initFileIno]).set dirId _).getD dirId emptyIno).fsize =
        (inoAt fs dirId).fsize + DIRENT_SZ
      rw [getD_set_self _ _ _ _ hsets]
      exact happ.1
    · rw [hkey]
      show liveEntries (((fs.inodes ++ [initFileIno]).set dirId _).getD dirId emptyIno) =
        liveEntries (inoAt fs dirId) ++ [⟨nm, fs.inodes.length⟩]
      rw [getD_set_self _ _ _ _ hsets]
      exact happ.2

/-- Claim C7 witness: on the concrete filesystem fs0, creating an existing
name fails and creating a fresh name d allocates inode 4 and appends the
entry. -/
theorem claim_C7_witness :
    (findInodeId (inoAt fs0 0) "a").isSome = true ∧
    create fs0 0 "a" = (none, fs0) ∧
    findInodeId (inoAt fs0 0) "d" = none ∧
    (create fs0 0 "d").1 = some 4 ∧
    inoAt (create fs0 0 "d").2 4 = initFileIno ∧
    (inoAt (create fs0 0 "d").2 0).fsize = (inoAt fs0 0).fsize + DIRENT_SZ ∧
    liveEntries (inoAt (create fs0 0 "d").2 0) = liveEntries (inoAt fs0 0) ++ [⟨"d", 4⟩] ∧
    ((create fs0 0 "d").2).flushes = fs0.flushes + 1 := by
  have h1 := (claim_C7 fs0 0 "a" (by decide) (by decide) (by decide)).1 (by decide)
  have h2 := (claim_C7 fs0 0 "d" (by decide) (by decide) (by decide)).2 (by decide)
  exact ⟨by decide, h1, by decide, h2.1, h2.2.1, h2.2.2.1, h2.2.2.2.1, h2.2.2.2.2⟩

/-- Claim C6: create_link(src, new_name) returns -1 and changes nothing when
no entry named src exists; otherwise it increments the src inode's link
count by 1, appends DirEntry(new_name, same id) at the end of the directory
and returns 0 — without rejecting the case where an entry named new_name
already exists (the success case carries no hypothesis about new_name, and
the witness exercises a duplicate). -/
theorem claim_C6 (fs : FS) (dirId : Nat) (src newName : String)
    (hdir : dirId < fs.inodes.length)
    (hmod : (inoAt fs dirId).fsize % DIRENT_SZ = 0)
    (hcap : (inoAt fs dirId).fsize / DIRENT_SZ ≤ (inoAt fs dirId).entries.length) :
    (findInodeId (inoAt fs dirId) src = none →
      createLink fs dirId src newName = (-1, fs)) ∧
    (∀ id, findInodeId (inoAt fs dirId) src = some id → id < fs.inodes.length →
      id ≠ dirId → (inoAt fs id).links + 1 < 65536 →
      (createLink fs dirId src newName).1 = 0 ∧
      (inoAt (createLink fs dirId src newName).2 id).links = (inoAt fs id).links + 1 ∧
      (inoAt (createLink fs dirId src newName).2 dirId).fsize =
        (inoAt fs dirId).fsize + DIRENT_SZ ∧
      liveEntries (inoAt (createLink fs dirId src newName).2 dirId) =
        liveEntries (inoAt fs dirId) ++ [⟨newName, id⟩]) := by
  constructor
  · intro h
    simp only [createLink]
    rw [h]
  · intro id hfind hid hne hb
    have hd1 : ∀ v, inoAt { fs with inodes := fs.inodes.set id v } dirId = inoAt fs dirId :=
      fun v => getD_set_ne fs.inodes id dirId v emptyIno hne
    have hkey : createLink fs dirId src newName = (0,
        ⟨(fs.inodes.set id
            (Ino.mk (inoAt fs id).isDir (((inoAt fs id).links + 1) % 65536)
              (inoAt fs id).fsize (inoAt fs id).entries (inoAt fs id).fdata)).set
          dirId
          (writeEntryAt (growDir (inoAt fs dirId)
            (((inoAt fs dirId).fsize / DIRENT_SZ + 1) * DIRENT_SZ))
            ((inoAt fs dirId).fsize / DIRENT_SZ) ⟨newName, id⟩),
         fs.flushes⟩) := by
      simp only [createLink, hfind]
      rw [hd1]
    have hlen2 : dirId < (fs.inodes.set id
        (Ino.mk (inoAt fs id).isDir (((inoAt fs id).links + 1) % 65536)
          (inoAt fs id).fsize (inoAt fs id).entries (inoAt fs id).fdata)).length := by
      rw [List.length_set]
      omega
    have happ := appendEntry_spec (inoAt fs dirId) ⟨newName, id⟩ hmod hcap
    refine ⟨by rw [hkey], ?_, ?_, ?_⟩
    · rw [hkey]
      show (((fs.inodes.set id _).set dirId _).getD id emptyIno).links =
        (inoAt fs id).links + 1
      rw [getD_set_ne _ _ _ _ _ (Ne.symm hne), getD_set_self _ _ _ _ hid]
      exact Nat.mod_eq_of_lt hb
    · rw [hkey]
      show (((fs.inodes.set id _).set dirId _).getD dirId emptyIno).fsize =
        (inoAt fs dirId).fsize + DIRENT_SZ
      rw [getD_set_self _ _ _ _ hlen2]
      exact happ.1
    · rw [hkey]
      show liveEntries (((fs.inodes.set id _).set dirId _).getD dirId emptyIno) =
        liveEntries (inoAt fs dirId) ++ [⟨newName, id⟩]
      rw [getD_set_self _ _ _ _ hlen2]
      exact happ.2

/-- Claim C6 witness: on fs0, linking a missing src fails with -1, and
linking a to the name b — which already exists — succeeds, increments inode
1's links and appends the duplicate-named entry. -/
theorem claim_C6_witness :
    findInodeId (inoAt fs0 0) "zz" = none ∧
    createLink fs0 0 "zz" "w" = (-1, fs0) ∧
    findInodeId (inoAt fs0 0) "a" = some 1 ∧
    (createLink fs0 0 "a" "b").1 = 0 ∧
    (inoAt (createLink fs0 0 "a" "b").2 1).links = (inoAt fs0 1).links + 1 ∧
    (inoAt (createLink fs0 0 "a" "b").2 0).fsize = (inoAt fs0 0).fsize + DIRENT_SZ ∧
    liveEntries (inoAt (createLink fs0 0 "a" "b").2 0) =
      liveEntries (inoAt fs0 0) ++ [⟨"b", 1⟩] := by
  have h1 := (claim_C6 fs0 0 "zz" "w" (by decide) (by decide) (by decide)).1 (by decide)
  have h2 := (claim_C6 fs0 0 "a" "b" (by decide) (by decide) (by decide)).2 1
    (by decide) (by decide) (by decide) (by decide)
  exact ⟨by decide, h1, by decide, h2.1, h2.2.1, h2.2.2.1, h2.2.2.2⟩

/-- Claim C8: write-then-read round trip on an inode. After write_at(O, B)
returns, having grown the file so that O + |B| is at most the file size, a
read_at(O, buf) with |buf| = |B| fills the buffer with exactly B and returns
|B| bytes. Stated under the inode invariant that the payload length equals
the stored size. -/
theorem claim_C8 (ino : Ino) (offset : Nat) (buf : List Nat)
    (hinv : ino.fdata.length = ino.fsize) :
    inoReadAt (inoWriteAt ino offset buf) offset buf.length = buf ∧
    (inoReadAt (inoWriteAt ino offset buf) offset buf.length).length = buf.length := by
  have hmain : inoReadAt (inoWriteAt ino offset buf) offset buf.length = buf := by
    simp only [inoWriteAt, inoReadAt]
    have hG : (ino.fdata ++
        List.replicate (max ino.fsize (offset + buf.length) - ino.fdata.length) 0).length =
        max ino.fsize (offset + buf.length) := by
      have h1 : ino.fsize ≤ max ino.fsize (offset + buf.length) := le_max_left _ _
      simp [List.length_append, List.length_replicate]
      omega
    have hofs : offset ≤ max ino.fsize (offset + buf.length) :=
      le_trans (Nat.le_add_right _ _) (le_max_right _ _)
    have htake : ((ino.fdata ++
        List.replicate (max ino.fsize (offset + buf.length) - ino.fdata.length) 0).take
          offset).length = offset := by
      rw [List.length_take, hG]
      omega
    have hF : (((ino.fdata ++
        List.replicate (max ino.fsize (offset + buf.length) - ino.fdata.length) 0).take offset
        ++ buf ++
        (ino.fdata ++
        List.replicate (max ino.fsize (offset + buf.length) - ino.fdata.length) 0).drop
          (offset + buf.length))).length = max ino.fsize (offset + buf.length) := by
      rw [List.length_append, List.length_append, htake, List.length_drop, hG]
      have h2 : offset + buf.length ≤ max ino.fsize (offset + buf.length) := le_max_right _ _
      omega
    rw [List.take_of_length_le (le_of_eq hF)]
    rw [List.append_assoc]
    rw [List.drop_left' htake]
    exact List.take_left' rfl
  exact ⟨hmain, by rw [hmain]⟩

/-- Claim C8 witness: the round trip on a concrete 3-byte file, writing 4
bytes at offset 1 (which grows the file to 5 bytes). -/
theorem claim_C8_witness :
    fileIno.fdata.length = fileIno.fsize ∧
    inoReadAt (inoWriteAt fileIno 1 [7, 8, 9, 11]) 1 4 = [7, 8, 9, 11] ∧
    (inoReadAt (inoWriteAt fileIno 1 [7, 8, 9, 11]) 1 4).length = 4 :=
  ⟨rfl, (claim_C8 fileIno 1 [7, 8, 9, 11] rfl).1, (claim_C8 fileIno 1 [7, 8, 9, 11] rfl).2⟩

/-- The sequential entry writes place the list over slots i, i+1, ... and
leave everything else, the header and the payload unchanged, as long as all
the written slots lie below `size` and inside the slot array. -/
theorem writeEntriesFrom_spec (lst : List DirEnt) : ∀ (ino : Ino) (i : Nat),
    (i + lst.length) * DIRENT_SZ ≤ ino.fsize → i + lst.length ≤ ino.entries.length →
    (writeEntriesFrom ino i lst).entries =
      ino.entries.take i ++ lst ++ ino.entries.drop (i + lst.length) ∧
    (writeEntriesFrom ino i lst).fsize = ino.fsize ∧
    (writeEntriesFrom ino i lst).isDir = ino.isDir ∧
    (writeEntriesFrom ino i lst).links = ino.links ∧
    (writeEntriesFrom ino i lst).fdata = ino.fdata := by
  induction lst with
  | nil =>
    intro ino i h1 h2
    refine ⟨?_, rfl, rfl, rfl, rfl⟩
    show ino.entries = ino.entries.take i ++ [] ++ ino.entries.drop (i + 0)
    simp [List.take_append_drop]
  | cons e rest ih =>
    intro ino i h1 h2
    have h2x : i + (rest.length + 1) ≤ ino.entries.length := by
      simpa [List.length_cons] using h2
    have h1x : (i + (rest.length + 1)) * DIRENT_SZ ≤ ino.fsize := by
      simpa [List.length_cons] using h1
    have hin : (i + 1) * DIRENT_SZ ≤ ino.fsize :=
      le_trans (Nat.mul_le_mul_right _ (by omega)) h1x
    have hilen : i < ino.entries.length := by omega
    have hw : writeEntryAt ino i e = { ino with entries := ino.entries.set i e } := by
      unfold writeEntryAt
      rw [if_pos hin]
    have hb1 : (i + 1 + rest.length) * DIRENT_SZ ≤ (writeEntryAt ino i e).fsize := by
      rw [hw]
      show (i + 1 + rest.length) * DIRENT_SZ ≤ ino.fsize
      refine le_trans (le_of_eq (by congr 1; omega)) h1x
    have hb2 : i + 1 + rest.length ≤ (writeEntryAt ino i e).entries.length := by
      rw [hw]
      show i + 1 + rest.length ≤ (ino.entries.set i e).length
      rw [List.length_set]
      omega
    obtain ⟨he, hf, hd, hl, hda⟩ := ih (writeEntryAt ino i e) (i + 1) hb1 hb2
    refine ⟨?_, ?_, ?_, ?_, ?_⟩
    · show (writeEntriesFrom (writeEntryAt ino i e) (i + 1) rest).entries = _
      rw [he, hw]
      show (ino.entries.set i e).take (i + 1) ++ rest ++
          (ino.entries.set i e).drop (i + 1 + rest.length) = _
      rw [take_set_succ _ _ _ hilen, List.drop_set, if_pos (by omega)]
      have hix : i + 1 + rest.length = i + (e :: rest).length := by
        simp only [List.length_cons]
        omega
      rw [hix]
      simp [List.append_assoc]
    · show (writeEntriesFrom (writeEntryAt ino i e) (i + 1) rest).fsize = _
      rw [hf, hw]
    · show (writeEntriesFrom (writeEntryAt ino i e) (i + 1) rest).isDir = _
      rw [hd, hw]
    · show (writeEntriesFrom (writeEntryAt ino i e) (i + 1) rest).links = _
      rw [hl, hw]
    · show (writeEntriesFrom (writeEntryAt ino i e) (i + 1) rest).fdata = _
      rw [hda, hw]

/-- Compaction of a well-formed directory holding exactly one live entry
named `p` removes that entry, shifts the later entries one slot left in
order, and shrinks the size by one entry. -/
theorem compactDir_spec (d : Ino) (p : String)
    (hmod : d.fsize % DIRENT_SZ = 0) (hcap : d.fsize / DIRENT_SZ ≤ d.entries.length)
    (hpos : 1 ≤ d.fsize / DIRENT_SZ)
    (hkept : ((liveEntries d).filter (fun e => e.name != p)).length =
      d.fsize / DIRENT_SZ - 1) :
    (compactDir d p).fsize = d.fsize - DIRENT_SZ ∧
    liveEntries (compactDir d p) = (liveEntries d).filter (fun e => e.name != p) ∧
    (compactDir d p).isDir = d.isDir ∧ (compactDir d p).links = d.links ∧
    (compactDir d p).fdata = d.fdata := by
  have h32 : DIRENT_SZ = 32 := rfl
  have hmod32 : d.fsize % 32 = 0 := by rw [← h32]; exact hmod
  have htk : ((liveEntries d).filter (fun e => e.name != p)).take (d.fsize / DIRENT_SZ - 1) =
      (liveEntries d).filter (fun e => e.name != p) :=
    List.take_of_length_le (le_of_eq hkept)
  have hb1 : (0 + ((liveEntries d).filter (fun e => e.name != p)).length) * DIRENT_SZ ≤
      d.fsize := by
    rw [hkept, h32]
    omega
  have hb2 : 0 + ((liveEntries d).filter (fun e => e.name != p)).length ≤
      d.entries.length := by
    rw [hkept]
    omega
  obtain ⟨he, hf, hd, hl, hda⟩ :=
    writeEntriesFrom_spec ((liveEntries d).filter (fun e => e.name != p)) d 0 hb1 hb2
  have hnwr : ¬ (d.fsize / DIRENT_SZ - 1 + 1) * DIRENT_SZ ≤
      (writeEntriesFrom d 0 ((liveEntries d).filter (fun e => e.name != p))).fsize -
        DIRENT_SZ := by
    rw [hf, h32]
    omega
  have hstep : compactDir d p =
      { writeEntriesFrom d 0 ((liveEntries d).filter (fun e => e.name != p)) with
        fsize := (writeEntriesFrom d 0
          ((liveEntries d).filter (fun e => e.name != p))).fsize - DIRENT_SZ } := by
    simp only [compactDir]
    rw [htk]
    unfold writeEntryAt
    dsimp only
    rw [if_neg hnwr]
  rw [hstep]
  refine ⟨by rw [hf], ?_, by rw [hd], by rw [hl], by rw [hda]⟩
  show (writeEntriesFrom d 0 ((liveEntries d).filter (fun e => e.name != p))).entries.take
      (((writeEntriesFrom d 0 ((liveEntries d).filter (fun e => e.name != p))).fsize -
        DIRENT_SZ) / DIRENT_SZ) =
    (liveEntries d).filter (fun e => e.name != p)
  rw [he, hf]
  have hdv : (d.fsize - DIRENT_SZ) / DIRENT_SZ = d.fsize / DIRENT_SZ - 1 := by
    rw [h32]
    omega
  rw [hdv]
  simp only [List.take_nil, List.nil_append, List.take_zero]
  rw [take_append_le _ _ _ (le_of_eq hkept.symm)]
  exact List.take_of_length_le (le_of_eq hkept)

/-- Claim C2 counterexample: on the concrete directory [a, b, c], unlinking a
leaves the live entries [b, c]: every entry after the removed slot shifts one
slot left; copying the last entry over the removed slot while leaving every
other entry in its original slot would instead give [c, b]. -/
theorem claim_C2_counterexample :
    (unlinkat fs0 0 "a").1 = 0 ∧
    liveEntries (inoAt (unlinkat fs0 0 "a").2 0) = [⟨"b", 2⟩, ⟨"c", 3⟩] ∧
    ¬ liveEntries (inoAt (unlinkat fs0 0 "a").2 0) = [⟨"c", 3⟩, ⟨"b", 2⟩] := by
  decide

/-- Claim C2 (amended): for a well-formed directory containing exactly one
live entry named n pointing at an inode other than the directory itself,
unlinkat(n) returns 0, decrements the target inode's link count, clears the
target's payload when the count reaches 0, and compacts the directory by
removing the entry and shifting every later entry one slot left in order
(entries before the removed slot stay in their slots), decrementing the
directory's size by exactly 32 bytes. -/
theorem claim_C2_amended (fs : FS) (dirId id : Nat) (path : String)
    (hdir : dirId < fs.inodes.length)
    (hmod : (inoAt fs dirId).fsize % DIRENT_SZ = 0)
    (hcap : (inoAt fs dirId).fsize / DIRENT_SZ ≤ (inoAt fs dirId).entries.length)
    (hpos : 1 ≤ (inoAt fs dirId).fsize / DIRENT_SZ)
    (hfind : findInodeId (inoAt fs dirId) path = some id)
    (hid : id < fs.inodes.length) (hne : id ≠ dirId)
    (hkept : ((liveEntries (inoAt fs dirId)).filter (fun e => e.name != path)).length =
      (inoAt fs dirId).fsize / DIRENT_SZ - 1)
    (hl0 : 0 < (inoAt fs id).links) (hl1 : (inoAt fs id).links < 65536) :
    (unlinkat fs dirId path).1 = 0 ∧
    (inoAt (unlinkat fs dirId path).2 id).links = (inoAt fs id).links - 1 ∧
    ((inoAt fs id).links = 1 →
      (inoAt (unlinkat fs dirId path).2 id).fsize = 0 ∧
      (inoAt (unlinkat fs dirId path).2 id).fdata = [] ∧
      (inoAt (unlinkat fs dirId path).2 id).entries = []) ∧
    (inoAt (unlinkat fs dirId path).2 dirId).fsize =
      (inoAt fs dirId).fsize - DIRENT_SZ ∧
    liveEntries (inoAt (unlinkat fs dirId path).2 dirId) =
      (liveEntries (inoAt fs dirId)).filter (fun e => e.name != path) := by
  have hcomp := compactDir_spec (inoAt fs dirId) path hmod hcap hpos hkept
  have hgetid : ∀ v : Ino, (fs.inodes.set id v).getD id emptyIno = v :=
    fun v => getD_set_self fs.inodes id v emptyIno hid
  have hgetdir : ∀ (L : List Ino) (v : Ino),
      (L.set id v).getD dirId emptyIno = L.getD dirId emptyIno :=
    fun L v => getD_set_ne L id dirId v emptyIno hne
  by_cases hl : (inoAt fs id).links = 1
  · have hz : ((inoAt fs id).links + 65535) % 65536 = 0 := by omega
    have hkey : unlinkat fs dirId path = (0,
        ⟨((fs.inodes.set id (Ino.mk (inoAt fs id).isDir 0 (inoAt fs id).fsize
            (inoAt fs id).entries (inoAt fs id).fdata)).set id
          (Ino.mk (inoAt fs id).isDir 0 0 [] [])).set dirId
          (compactDir (inoAt fs dirId) path),
         fs.flushes + 1⟩) := by
      simp only [unlinkat, hfind, hz]
      rw [if_pos (show ((0 : Nat) == 0) = true from rfl)]
      simp only [clearIno, inoAt, hgetid, hgetdir]
    have htarget : inoAt (unlinkat fs dirId path).2 id =
        Ino.mk (inoAt fs id).isDir 0 0 [] [] := by
      rw [hkey]
      simp only [inoAt]
      rw [getD_set_ne _ _ _ _ _ (Ne.symm hne)]
      rw [getD_set_self _ _ _ _ (by rw [List.length_set]; exact hid)]
    have hdirf : inoAt (unlinkat fs dirId path).2 dirId =
        compactDir (inoAt fs dirId) path := by
      rw [hkey]
      simp only [inoAt]
      rw [getD_set_self _ _ _ _ (by simp only [List.length_set]; exact hdir)]
    refine ⟨by rw [hkey], ?_, ?_, ?_, ?_⟩
    · rw [htarget]
      show (0 : Nat) = (inoAt fs id).links - 1
      omega
    · intro _
      rw [htarget]
      exact ⟨rfl, rfl, rfl⟩
    · rw [hdirf]
      exact hcomp.1
    · rw [hdirf]
      exact hcomp.2.1
  · have hz : ((inoAt fs id).links + 65535) % 65536 = (inoAt fs id).links - 1 := by omega
    have hnz : ¬ ((((inoAt fs id).links - 1) == 0) = true) := by
      simp only [beq_iff_eq]
      omega
    have hkey : unlinkat fs dirId path = (0,
        ⟨(fs.inodes.set id (Ino.mk (inoAt fs id).isDir ((inoAt fs id).links - 1)
            (inoAt fs id).fsize (inoAt fs id).entries (inoAt fs id).fdata)).set dirId
          (compactDir (inoAt fs dirId) path),
         fs.flushes⟩) := by
      simp only [unlinkat, hfind, hz]
      rw [if_neg hnz]
      simp only [inoAt, hgetdir]
    have htarget : inoAt (unlinkat fs dirId path).2 id =
        Ino.mk (inoAt fs id).isDir ((inoAt fs id).links - 1) (inoAt fs id).fsize
          (inoAt fs id).entries (inoAt fs id).fdata := by
      rw [hkey]
      simp only [inoAt]
      rw [getD_set_ne _ _ _ _ _ (Ne.symm hne), hgetid]
    have hdirf : inoAt (unlinkat fs dirId path).2 dirId =
        compactDir (inoAt fs dirId) path := by
      rw [hkey]
      simp only [inoAt]
      rw [getD_set_self _ _ _ _ (by simp only [List.length_set]; exact hdir)]
    refine ⟨by rw [hkey], by rw [htarget], ?_, ?_, ?_⟩
    · intro hco
      exact absurd hco hl
    · rw [hdirf]
      exact hcomp.1
    · rw [hdirf]
      exact hcomp.2.1

/-- Claim C2 witness: the amended theorem evaluated on the concrete
directories fs0 (target keeps a link, no clearing) and fs0c (target link
count reaches 0, payload cleared). -/
theorem claim_C2_witness :
    (unlinkat fs0 0 "a").1 = 0 ∧
    (inoAt (unlinkat fs0 0 "a").2 1).links = (inoAt fs0 1).links - 1 ∧
    (inoAt (unlinkat fs0 0 "a").2 0).fsize = (inoAt fs0 0).fsize - DIRENT_SZ ∧
    liveEntries (inoAt (unlinkat fs0 0 "a").2 0) =
      (liveEntries (inoAt fs0 0)).filter (fun e => e.name != "a") ∧
    (inoAt (unlinkat fs0c 0 "a").2 1).links = 0 ∧
    (inoAt (unlinkat fs0c 0 "a").2 1).fsize = 0 ∧
    (inoAt (unlinkat fs0c 0 "a").2 1).fdata = [] := by
  have h1 := claim_C2_amended fs0 0 1 "a" (by decide) (by decide) (by decide) (by decide)
    (by decide) (by decide) (by decide) (by decide) (by decide) (by decide)
  have h2 := claim_C2_amended fs0c 0 1 "a" (by decide) (by decide) (by decide) (by decide)
    (by decide) (by decide) (by decide) (by decide) (by decide) (by decide)
  refine ⟨h1.1, h1.2.1, h1.2.2.2.1, h1.2.2.2.2, ?_, (h2.2.2.1 (by decide)).1,
    (h2.2.2.1 (by decide)).2.1⟩
  have := h2.2.1
  rw [this]
  decide

end RCore

